import Mathlib

/-!
Verification development for the featureio repository.

The definitions below are a shallow embedding of `src/featureio/gene.py`
and `src/featureio/seq.py`.  Python strings are modelled as `String` or
`List Char`, Python ints as `Int`, Python dicts that the claims touch as
association lists in insertion order, and fallible constructors as
`Option`/`Except` values.
-/

namespace Featureio

/-! ## gene.py: reverse_complement -/

/-- The string bound to `complement_char.chars` in gene.py. -/
def complement_char_chars : String := "acgtumrwsykvhdbnACGTUMRWSYKVHDBN"

/-- The string bound to `complement_char.compl` in gene.py. -/
def complement_char_compl : String := "tgcaakywsrmbdhvnTGCAAKYWSRMBDHVN"

/-- The dict `complement_char.compd = dict(zip(chars, compl))` in gene.py. -/
def complement_char_compd : List (Char × Char) :=
  complement_char_chars.data.zip complement_char_compl.data

/-- Function `complement_char(c)` from gene.py: look `c` up in the table,
and return `c` itself when it is absent. -/
def complement_char (c : Char) : Char :=
  (complement_char_compd.lookup c).getD c

/-- Function `reverse_complement(seq)` from gene.py: the empty-join of
`complement_char` over the characters followed by `[::-1]`, i.e. map the
complement over the characters and reverse the result. -/
def reverse_complement (s : String) : String :=
  ⟨(s.data.map complement_char).reverse⟩

/-! ## CSV integer parsing used by the Gene constructor

`Gene.__init__` receives `block_sizes` and `block_starts` as comma
separated text and runs `[int(s) for s in text.split(',') if len(s)]`.
The helpers below embed `str.split(',')`, `int()` on a sign-and-digits
token, and the comprehension.  (`int()` also tolerates surrounding
whitespace, which never occurs in this code path and is not modelled.) -/

/-- Python string splitting on commas, as `text.split` with a comma
separator does: split on every comma, keeping empty pieces (an empty
text yields one empty piece). -/
def splitComma : List Char → List (List Char)
  | [] => [[]]
  | c :: rest =>
    if c = ',' then [] :: splitComma rest
    else
      match splitComma rest with
      | [] => [[c]]
      | t :: ts => (c :: t) :: ts

/-- Value of a decimal digit character, `none` for any other character. -/
def digitVal (c : Char) : Option Nat :=
  if c.isDigit then some (c.toNat - 48) else none

/-- Decimal reading of a nonempty all-digit token, as Python `int()` does
for an unsigned literal; `none` when the token is empty or has a
non-digit. -/
def parseNatTok (cs : List Char) : Option Nat :=
  if cs.isEmpty then none
  else
    cs.foldl
      (fun acc c =>
        match acc, digitVal c with
        | some a, some d => some (a * 10 + d)
        | _, _ => none)
      (some 0)

/-- Python `int(token)` on an optionally signed decimal token. -/
def parseIntTok (cs : List Char) : Option Int :=
  match cs with
  | '-' :: rest => (parseNatTok rest).map (fun n => -(n : Int))
  | '+' :: rest => (parseNatTok rest).map (fun n => (n : Int))
  | _ => (parseNatTok cs).map (fun n => (n : Int))

/-- Comprehension `[int(s) for s in text.split(sep) if len(s)]` with a
comma separator, from `Gene.__init__`:
empty tokens are dropped before `int()` runs, and a malformed token makes
the whole constructor fail (Python raises `ValueError`). -/
def parseIntList (s : String) : Option (List Int) :=
  ((splitComma s.data).filter (fun t => !t.isEmpty)).mapM parseIntTok

/-- Python comma-join of `map(str, xs)`, used by `Gene.copy` to
re-serialize the block lists. -/
def joinCSV (xs : List Int) : String :=
  String.intercalate "," (xs.map (fun n => toString n))

/-! ## gene.py: the Gene record -/

/-- A constructed `Gene` object: the attribute state that `Gene.__init__`
leaves behind.  `attrs` models the `self.attrs` dict and `aux_attrs`
models the `**kwargs` extras that `__init__` copies into `self.__dict__`
and remembers in `self._aux_attrs` (values are modelled as strings, which
covers every use in the repository). -/
structure Gene where
  chrom : String
  start : Int
  «end» : Int
  name : String
  score : Int
  strand : String
  cds_start : Int
  cds_end : Int
  item_rgb : String
  block_count : Int
  block_sizes : List Int
  block_starts : List Int
  attrs : List (String × String)
  aux_attrs : List (String × String)
  exons : List (Int × Int)
  cds_exons : List (Int × Int)
  length : Int
  cds_length : Int
  fivep : Int
  cds_fivep : Int
deriving DecidableEq, Repr

/-- Python `sorted` on a list of ints (`sorted([start, end, cds_start,
cds_end])` in `Gene.__init__`). -/
def pySorted (l : List Int) : List Int :=
  List.insertionSort (· ≤ ·) l

/-- The per-block CDS-exon step of `Gene.__init__`: sort the four
boundary values, `continue` (emit nothing) when
`(sc[0], sc[1]) == (start, end)` or `(sc[0], sc[1]) == (cds_start,
cds_end)`, and otherwise append the clipped interval
`(max(cds_start, start), min(cds_end, end))`.  Here `bstart`/`bend` are
the absolute block boundaries called `start`/`end` inside the loop. -/
def cdsStep (cds_start cds_end bstart bend : Int) : Option (Int × Int) :=
  let sc := pySorted [bstart, bend, cds_start, cds_end]
  if (sc.getD 0 0 = bstart ∧ sc.getD 1 0 = bend) ∨
     (sc.getD 0 0 = cds_start ∧ sc.getD 1 0 = cds_end)
  then none
  else some (max cds_start bstart, min cds_end bend)

/-- The body of `Gene.__init__` after the two block strings have been
parsed into integer lists.  The scalar fields arrive here already
coerced by `int()`.  `self.length` is first set to `sum(block_sizes)`
and then overwritten from the exon list; only the final value is kept.
`self.__dict__.update(kwargs)` together with `self._aux_attrs =
kwargs.keys()` is modelled by storing the kwargs pairs in
`aux_attrs`. -/
def geneOfFields (chrom : String) (start «end» : Int) (name : String)
    (score : Int) (strand : String) (cds_start cds_end : Int)
    (item_rgb : String) (block_count : Int)
    (sizes starts : List Int)
    (attrs : Option (List (String × String)))
    (kwargs : List (String × String)) : Gene :=
  let exons := (starts.zip sizes).map
    (fun p => (start + p.1, start + p.1 + p.2))
  let cds_exons := (starts.zip sizes).filterMap
    (fun p => cdsStep cds_start cds_end (start + p.1) (start + p.1 + p.2))
  { chrom := chrom
    start := start
    «end» := «end»
    name := name
    score := score
    strand := strand
    cds_start := cds_start
    cds_end := cds_end
    item_rgb := item_rgb
    block_count := block_count
    block_sizes := sizes
    block_starts := starts
    attrs := attrs.getD []
    aux_attrs := kwargs
    exons := exons
    cds_exons := cds_exons
    length := (exons.map (fun e => e.2 - e.1 + 1)).sum
    cds_length := (cds_exons.map (fun e => e.2 - e.1 + 1)).sum
    fivep := if strand = "+" then start else «end»
    cds_fivep := if strand = "+" then cds_start else cds_end }

/-- Constructor `Gene.__init__` with the block layout in comma-separated text,
as every caller in the repository supplies it; `none` models the
`ValueError` that `int()` raises on a malformed token. -/
def geneInit (chrom : String) (start «end» : Int) (name : String)
    (score : Int) (strand : String) (cds_start cds_end : Int)
    (item_rgb : String) (block_count : Int)
    (block_sizes block_starts : String)
    (attrs : Option (List (String × String)))
    (kwargs : List (String × String)) : Option Gene :=
  match parseIntList block_sizes, parseIntList block_starts with
  | some sizes, some starts =>
    some (geneOfFields chrom start «end» name score strand cds_start
      cds_end item_rgb block_count sizes starts attrs kwargs)
  | _, _ => none

/-- Method `Gene.copy`: rebuild the record through the constructor, passing the
re-joined block strings, and passing the dict
`{k: self.__dict__[k] for k in self._aux_attrs}` as the `attrs`
argument (and no keyword extras). -/
def Gene.copy (g : Gene) : Option Gene :=
  geneInit g.chrom g.start g.«end» g.name g.score g.strand g.cds_start
    g.cds_end g.item_rgb g.block_count (joinCSV g.block_sizes)
    (joinCSV g.block_starts) (some g.aux_attrs) []

/-! ## gene.py: interval comparison methods

The `comparison` argument of the methods below is the Python string
`exons` or `cds_exons` read back with `getattr`; it is modelled as a
two-value selector. -/

/-- The `comparison` argument (`exons` or `cds_exons`) of the Gene
comparison methods. -/
inductive Comparison
  | exons
  | cds_exons
deriving DecidableEq, Repr

/-- Lookup `getattr(g, comparison)` for the two comparison attribute names. -/
def Gene.sel (g : Gene) : Comparison → List (Int × Int)
  | Comparison.exons => g.exons
  | Comparison.cds_exons => g.cds_exons

/-- Method `Gene.locus_overlap`: false when the `[start, end]` spans miss each
other, when the chromosomes differ, or when the strands differ;
otherwise true. -/
def locus_overlap (a b : Gene) : Bool :=
  if a.start > b.«end» ∨ b.start > a.«end» then false
  else if a.chrom ≠ b.chrom then false
  else if a.strand ≠ b.strand then false
  else true

/-- Method `Gene.is_isoform`: false without locus overlap; otherwise true iff
some interval of `a` equals (same start and same end) some interval of
`b`, scanning the full cartesian product as `itertools.product` does. -/
def is_isoform (a b : Gene) (c : Comparison) : Bool :=
  if locus_overlap a b then
    (a.sel c).any (fun p => (b.sel c).any
      (fun q => decide (p.1 = q.1) && decide (p.2 = q.2)))
  else false

/-- The order Python `sorted` uses on int pairs: lexicographic. -/
def pairLe (p q : Int × Int) : Prop :=
  p.1 < q.1 ∨ (p.1 = q.1 ∧ p.2 ≤ q.2)

instance : DecidableRel pairLe := fun p q =>
  inferInstanceAs (Decidable (p.1 < q.1 ∨ (p.1 = q.1 ∧ p.2 ≤ q.2)))

/-- Python `sorted` on a list of int pairs. -/
def sortPairs (l : List (Int × Int)) : List (Int × Int) :=
  List.insertionSort pairLe l

/-- Method `Gene.identical`: sort both chosen interval lists, then require equal
lengths and element-wise equality of the zipped lists.  No locus check
is performed. -/
def identical (a b : Gene) (c : Comparison) : Bool :=
  let sa := sortPairs (a.sel c)
  let sb := sortPairs (b.sel c)
  decide (sa.length = sb.length) && (sa.zip sb).all (fun p => decide (p.1 = p.2))

/-- Method `Gene.overlap`: false without locus overlap; otherwise true iff some
interval pair from the cartesian product satisfies the closed-interval
test `a[0] <= b[1] and b[0] <= a[1]`. -/
def overlap (a b : Gene) (c : Comparison) : Bool :=
  if locus_overlap a b then
    (a.sel c).any (fun p => (b.sel c).any
      (fun q => decide (p.1 ≤ q.2) && decide (q.1 ≤ p.2)))
  else false

/-- Method `Gene.overlap_length`: 0 without locus overlap; otherwise the sum of
`max(0, min(a[1], b[1]) - max(a[0], b[0]))` over the full cartesian
product of the two chosen interval lists. -/
def overlap_length (a b : Gene) (c : Comparison) : Int :=
  if locus_overlap a b then
    ((a.sel c).map (fun p => ((b.sel c).map
      (fun q => max 0 (min p.2 q.2 - max p.1 q.1))).sum)).sum
  else 0

/-- Two closed intervals are disjoint: one ends strictly before the other
starts. -/
def disjointIv (p q : Int × Int) : Prop := p.2 < q.1 ∨ q.2 < p.1

instance : DecidableRel disjointIv := fun p q =>
  inferInstanceAs (Decidable (p.2 < q.1 ∨ q.2 < p.1))

/-! ## Concrete Gene records used by counterexamples and witnesses -/

/-- A record on chromosome `chr1` with exons `[(10, 20)]`. -/
def gC5a : Gene := geneOfFields "chr1" 10 20 "a" 0 "+" 0 0 "0" 1 [10] [0] none []

/-- The same exon structure as `gC5a` but on chromosome `chr2`. -/
def gC5b : Gene := geneOfFields "chr2" 10 20 "b" 0 "+" 0 0 "0" 1 [10] [0] none []

/-- The same exon structure as `gC5a`, also on `chr1`. -/
def gC5c : Gene := geneOfFields "chr1" 10 20 "c" 0 "+" 0 0 "0" 1 [10] [0] none []

/-- A record with exons `[(0, 10)]` on `chr1`. -/
def gC6a : Gene := geneOfFields "chr1" 0 100 "a" 0 "+" 0 0 "0" 1 [10] [0] none []

/-- A record with exons `[(5, 15)]` on `chr1`: it overlaps `gC6a` without
sharing an exact boundary pair. -/
def gC6b : Gene := geneOfFields "chr1" 5 100 "b" 0 "+" 0 0 "0" 1 [10] [0] none []

/-- A record with the single exon `[(100, 150)]`. -/
def gC7 : Gene := geneOfFields "chr1" 100 150 "a" 0 "+" 0 0 "0" 1 [50] [0] none []

/-- A valid record used to witness the conditional invariants: exons
`[(100, 150), (160, 200)]` inside the span `[100, 200]`. -/
def gC3 : Gene := geneOfFields "chr1" 100 200 "g" 0 "+" 120 180 "0" 2 [50, 40] [0, 60] none []

/-! ## seq.py: streaming FASTA record parsing

`parse_fasta_record(file)` works on an opened text file through
`read(1)`, `readline()`, `tell()` and `seek()`.  The stream is modelled
by the list of characters not yet consumed; `file.seek(file.tell() - 1)`
un-consumes the character just read, which in this model prepends it to
the leftover list.  `StopIteration` (no header before end of file) and
the `IndexError` a headerless line would raise are modelled as `none`. -/

/-- Python `str.isspace` on the ASCII whitespace characters. -/
def pyIsSpace (c : Char) : Bool :=
  c == ' ' || c == '\t' || c == '\n' || c == '\x0d' || c == '\x0b' || c == '\x0c'

/-- The `Seq` object of seq.py: name, raw sequence, optional
description. -/
structure Seq where
  name : List Char
  sequence : List Char
  description : Option (List Char)
deriving DecidableEq, Repr

/-- The first loop of `parse_fasta_record`: `read(1)` until a `'>'`
appears, returning the stream after it; `none` when end of file comes
first (Python raises `StopIteration`). -/
def findHeader : List Char → Option (List Char)
  | [] => none
  | c :: rest => if c = '>' then some rest else findHeader rest

/-- Python `file.readline()`: the characters up to and including the next
newline (or to end of file), paired with the rest of the stream. -/
def readLine : List Char → List Char × List Char
  | [] => ([], [])
  | c :: rest =>
    if c = '\n' then ([c], rest)
    else
      let p := readLine rest
      (c :: p.1, p.2)

/-- Python `str.strip()`: drop leading and trailing whitespace. -/
def pyStrip (l : List Char) : List Char :=
  ((l.dropWhile pyIsSpace).reverse.dropWhile pyIsSpace).reverse

/-- Processing `header.strip().split(maxsplit=1)` followed by
`id = fields[0]; description = fields[1] if len(fields) > 1 else None`:
the id is the first whitespace-free token and the description is
whatever follows the first whitespace run, or `None`.  An empty header
(where `fields[0]` raises `IndexError`) is modelled as `none`. -/
def splitHeader (line : List Char) : Option (List Char × Option (List Char)) :=
  let s := pyStrip line
  if s = [] then none
  else
    let id := s.takeWhile (fun c => !pyIsSpace c)
    let rest := (s.drop id.length).dropWhile pyIsSpace
    some (id, if rest = [] then none else some rest)

/-- The sequence-reading loop of `parse_fasta_record`: skip whitespace,
stop with flag `true` at end of file, and otherwise accumulate the
character and stop with flag `false` right after accumulating a `'>'`.
Returns the accumulated characters, the `end_of_file` flag, and the
unread rest of the stream. -/
def seqLoop (acc : List Char) : List Char → List Char × Bool × List Char
  | [] => (acc, true, [])
  | c :: rest =>
    if pyIsSpace c then seqLoop acc rest
    else if c = '>' then (acc ++ [c], false, rest)
    else seqLoop (acc ++ [c]) rest

/-- Function `parse_fasta_record(file)` from seq.py, with the stream as the unread
character list.  When the sequence loop stopped at a `'>'`, the code
rewinds one byte (`file.seek(file.tell() - 1)`, modelled by putting
`'>'` back on the stream) and drops the `'>'` from the accumulated
sequence. -/
def parse_fasta_record (cs : List Char) : Option (Seq × List Char) :=
  match findHeader cs with
  | none => none
  | some afterMarker =>
    let line := readLine afterMarker
    match splitHeader line.1 with
    | none => none
    | some idDescr =>
      let r := seqLoop [] line.2
      if r.2.1 then
        some (⟨idDescr.1, r.1, idDescr.2⟩, r.2.2)
      else
        some (⟨idDescr.1, r.1.dropLast, idDescr.2⟩, '>' :: r.2.2)

/-! ## seq.py: IndexedFastaCollection construction

`IndexedFastaCollection.__init__` builds one `IndexedFasta` per file and
merges their sequence-name spaces into the insertion-ordered dict
`self.index_map`, raising
`ValueError(f"Key collision: sequence name {k} appears more than once.")`
when a name is already present.  Only the key set of each member index
matters to the merge, so a member `IndexedFasta` is modelled by its list
of sequence names (`sequences()` order) and the merged dict by its key
list in insertion order. -/

/-- The rendered message of the duplicate-key `ValueError`. -/
def collisionMsg (k : String) : String :=
  "Key collision: sequence name " ++ k ++ " appears more than once."

/-- The inner loop over one member index: add each name to the merged
key list, failing on a name that is already present. -/
def insertKeys : List String → List String → Except String (List String)
  | acc, [] => Except.ok acc
  | acc, k :: rest =>
    if k ∈ acc then Except.error (collisionMsg k)
    else insertKeys (acc ++ [k]) rest

/-- The outer loop of `IndexedFastaCollection.__init__` over the member
indices. -/
def collectionInitAux : List String → List (List String) → Except String (List String)
  | acc, [] => Except.ok acc
  | acc, idx :: rest =>
    match insertKeys acc idx with
    | Except.error e => Except.error e
    | Except.ok acc2 => collectionInitAux acc2 rest

/-- Method `IndexedFastaCollection.__init__` on the name lists of the
member indices: either the merged key list (the `keys()` of the
collection), or the message
of the `ValueError` raised on the first duplicated name. -/
def collectionInit (indices : List (List String)) : Except String (List String) :=
  collectionInitAux [] indices

/-! ## Theorems -/

/-- The supported alphabet without the uracil codes `u`/`U`, on which the
complement table is an involution. -/
def nonUracilAlphabet : String := "acgtmrwsykvhdbnACGTMRWSYKVHDBN"

lemma complement_char_involutive :
    ∀ c ∈ nonUracilAlphabet.data, complement_char (complement_char c) = c := by
  decide

lemma map_self_of_forall_eq (l : List Char)
    (h : ∀ c ∈ l, complement_char (complement_char c) = c) :
    l.map (fun c => complement_char (complement_char c)) = l := by
  induction l with
  | nil => rfl
  | cons a t ih =>
    simp only [List.map_cons, List.cons.injEq]
    exact ⟨h a (List.mem_cons_self a t), ih fun c hc => h c (List.mem_cons_of_mem a hc)⟩

/-- C1 counterexample: `'u'` belongs to the supported alphabet, yet
`reverse_complement(reverse_complement("u")) == "t"`, not `"u"`: the
table sends `u` to `a` (RNA pairing) but `a` back to `t`. -/
theorem C1_revcomp_cex :
    ('u' ∈ complement_char_chars.data) ∧
    reverse_complement (reverse_complement "u") = "t" ∧
    reverse_complement (reverse_complement "u") ≠ "u" := by
  decide

/-- C1 (amended): for every string drawn from the supported alphabet
minus `u`/`U`, `reverse_complement(reverse_complement(s)) == s`. -/
theorem C1_revcomp_involution (s : String)
    (h : ∀ c ∈ s.data, c ∈ nonUracilAlphabet.data) :
    reverse_complement (reverse_complement s) = s := by
  have key : (s.data.map complement_char).map complement_char = s.data := by
    rw [List.map_map]
    exact map_self_of_forall_eq s.data
      (fun c hc => complement_char_involutive c (h c hc))
  show String.mk (((String.mk ((s.data.map complement_char).reverse)).data.map
    complement_char).reverse) = s
  show String.mk (((((s.data.map complement_char)).reverse).map
    complement_char).reverse) = s
  rw [List.map_reverse, List.reverse_reverse, key]

/-- C1 witness: the involution at the concrete string `"ACGTn"`. -/
theorem C1_revcomp_witness :
    reverse_complement (reverse_complement "ACGTn") = "ACGTn" :=
  C1_revcomp_involution "ACGTn" (by decide)

/-- C2: a record built with `attrs={'note': 'x'}` and no keyword extras
has `copy().attrs == {}`: `Gene.copy` passes the keyword-extras dict as
the `attrs` argument and drops `self.attrs`, so the extensible
attributes are not preserved across `copy`. -/
theorem C2_copy_drops_attrs :
    ((geneInit "chr1" 1 10 "g" 0 "+" 1 10 "0" 1 "10" "0"
      (some [("note", "x")]) []).map Gene.attrs = some [("note", "x")]) ∧
    (((geneInit "chr1" 1 10 "g" 0 "+" 1 10 "0" 1 "10" "0"
      (some [("note", "x")]) []).bind Gene.copy).map Gene.attrs = some []) := by
  decide

/-- C3 counterexample: the constructor accepts
`start=100, end=200, block_sizes="50,50", block_starts="0,100"` although
the derived exon `(200, 250)` lies outside `[100, 200]`: no invariant is
enforced at construction time. -/
theorem C3_unvalidated_cex :
    (geneInit "chr1" 100 200 "g" 0 "+" 120 180 "0" 2 "50,50" "0,100" none []).map
      (fun g => g.exons.all
        (fun e => decide (g.start ≤ e.1) && decide (e.2 ≤ g.«end»))) =
    some false := by
  decide

/-- C3 (amended): the constructor enforces nothing, so the invariants are
conditions on the inputs rather than guarantees; whenever a constructed
record has `block_count == len(block_sizes) == len(block_starts)`,
non-negative block starts, `start <= end` and
`block_start + size <= end - start` for every block, all the stated
invariants hold, in particular every derived exon lies within
`[start, end]`. -/
theorem C3_invariants_conditional
    (chrom nm strand rgb : String) (start end_ score cs ce bc : Int)
    (bs bst : String) (attrs : Option (List (String × String)))
    (kwargs : List (String × String)) (g : Gene)
    (hinit : geneInit chrom start end_ nm score strand cs ce rgb bc bs bst
      attrs kwargs = some g)
    (hcount : g.block_count = (g.block_sizes.length : Int))
    (hlen : g.block_sizes.length = g.block_starts.length)
    (hnn : ∀ b ∈ g.block_starts, 0 ≤ b)
    (hse : g.start ≤ g.«end»)
    (hfit : ∀ p ∈ g.block_starts.zip g.block_sizes,
      p.1 + p.2 ≤ g.«end» - g.start) :
    (g.block_count = (g.block_sizes.length : Int) ∧
      g.block_sizes.length = g.block_starts.length) ∧
    (∀ b ∈ g.block_starts, 0 ≤ b) ∧
    g.start ≤ g.«end» ∧
    (∀ e ∈ g.exons, g.start ≤ e.1 ∧ e.2 ≤ g.«end») := by
  refine ⟨⟨hcount, hlen⟩, hnn, hse, ?_⟩
  unfold geneInit at hinit
  cases hbs : parseIntList bs with
  | none => rw [hbs] at hinit; exact absurd hinit (by simp)
  | some sizes =>
    cases hbst : parseIntList bst with
    | none => rw [hbs, hbst] at hinit; exact absurd hinit (by simp)
    | some starts =>
      rw [hbs, hbst] at hinit
      have hg : geneOfFields chrom start end_ nm score strand cs ce rgb bc
          sizes starts attrs kwargs = g := Option.some.inj hinit
      subst hg
      intro e he
      have he2 : e ∈ (starts.zip sizes).map
          (fun p => (start + p.1, start + p.1 + p.2)) := he
      obtain ⟨p, hpmem, hpe⟩ := List.mem_map.mp he2
      have hb : p.1 ∈ starts := (List.of_mem_zip hpmem).1
      have hb0 : (0 : Int) ≤ p.1 := hnn p.1 hb
      have hps : p.1 + p.2 ≤ end_ - start := hfit p hpmem
      rw [← hpe]
      constructor
      · show start ≤ start + p.1
        omega
      · show start + p.1 + p.2 ≤ end_
        omega

/-- C3 witness: the conditional invariants at the record `gC3` with
exons `[(100, 150), (160, 200)]` inside `[100, 200]`. -/
theorem C3_invariants_witness :
    gC3.start ≤ 100 ∧ (150 : Int) ≤ gC3.«end» := by
  have h := C3_invariants_conditional "chr1" "g" "+" "0" 100 200 0 120 180 2
    "50,40" "0,60" none [] gC3 rfl (by decide) (by decide) (by decide)
    (by decide) (by decide)
  exact h.2.2.2 (100, 150) (by decide)

/-- C4 counterexample: for `start=10, end=20, block_sizes="10",
block_starts="0", cds_start=10, cds_end=20` the single block `(10, 20)`
is identical to the full CDS span (with `10 < 20`), yet construction
appends `(10, 20)` to `cds_exons` instead of skipping the block. -/
theorem C4_cds_span_cex :
    (geneInit "chr1" 10 20 "g" 0 "+" 10 20 "0" 1 "10" "0" none []).map
      Gene.cds_exons = some [(10, 20)] := by
  decide

/-- C4 (amended): a block whose absolute interval equals the full CDS
span (with the block start strictly below the block end) is NOT skipped
in CDS-exon derivation: the
sorted four boundary values are `[s, s, e, e]`, so neither skip test
`(sc[0], sc[1]) == (block start, block end)` nor `(sc[0], sc[1]) ==
(cds_start, cds_end)` fires, and the clipped interval — the block
itself — is
appended. -/
theorem C4_cds_span_emitted (s e : Int) (h : s < e) :
    cdsStep s e s e = some (s, e) := by
  have h1 : s ≤ e := le_of_lt h
  have h2 : ¬ e ≤ s := not_le.mpr h
  have hsort : pySorted [s, e, s, e] = [s, s, e, e] := by
    simp [pySorted, List.insertionSort, List.orderedInsert, h1, h2, le_refl]
  rw [cdsStep, hsort]
  have hcond : ¬ ((([s, s, e, e].getD 0 0 = s ∧ [s, s, e, e].getD 1 0 = e) ∨
      ([s, s, e, e].getD 0 0 = s ∧ [s, s, e, e].getD 1 0 = e))) := by
    simp [List.getD]
    omega
  rw [if_neg hcond]
  rw [max_self, min_self]

/-- C4 witness: the amended behaviour at the concrete block `(0, 1)`. -/
theorem C4_cds_span_witness : cdsStep 0 1 0 1 = some (0, 1) :=
  C4_cds_span_emitted 0 1 (by decide)

/-- C9: the record built from `start=100, end=200, block_sizes="50,50",
block_starts="0,100", cds_start=120, cds_end=180, strand="+"` has
`exons == [(100, 150), (200, 250)]` and `cds_exons == [(120, 150)]` (the
part of the first exon inside `[120, 180]`; the second block is skipped
because the CDS lies entirely to its left). -/
theorem C9_block_scenario :
    ((geneInit "chr1" 100 200 "g" 0 "+" 120 180 "0" 2 "50,50" "0,100"
      none []).map Gene.exons = some [(100, 150), (200, 250)]) ∧
    ((geneInit "chr1" 100 200 "g" 0 "+" 120 180 "0" 2 "50,50" "0,100"
      none []).map Gene.cds_exons = some [(120, 150)]) := by
  decide

lemma eq_of_length_eq_zip_forall {α : Type} :
    ∀ (l₁ l₂ : List α), l₁.length = l₂.length →
    (∀ p ∈ l₁.zip l₂, p.1 = p.2) → l₁ = l₂ := by
  intro l₁
  induction l₁ with
  | nil =>
    intro l₂ h _
    cases l₂ with
    | nil => rfl
    | cons b t => simp at h
  | cons a t ih =>
    intro l₂ h hall
    cases l₂ with
    | nil => simp at h
    | cons b t₂ =>
      have hab : a = b := hall (a, b) (by simp)
      have ht : t = t₂ := by
        apply ih t₂ (by simpa using h)
        intro p hp
        exact hall p (List.mem_cons_of_mem _ hp)
      rw [hab, ht]

lemma sortPairs_perm (l : List (Int × Int)) : (sortPairs l).Perm l :=
  List.perm_insertionSort pairLe l

lemma identical_sel_eq {a b : Gene} {c : Comparison}
    (hid : identical a b c = true) :
    sortPairs (a.sel c) = sortPairs (b.sel c) := by
  simp only [identical, Bool.and_eq_true, decide_eq_true_eq,
    List.all_eq_true] at hid
  exact eq_of_length_eq_zip_forall _ _ hid.1
    (fun p hp => by simpa using hid.2 p hp)

/-- C5 counterexample: `gC5a` and `gC5b` carry the same single exon
`(10, 20)` (both interval sets non-empty) but live on different
chromosomes, so `identical` is true while `is_isoform` and `overlap` are
both false — `identical` never checks the locus. -/
theorem C5_identical_cex :
    (geneInit "chr1" 10 20 "a" 0 "+" 0 0 "0" 1 "10" "0" none [] =
      some gC5a) ∧
    (geneInit "chr2" 10 20 "b" 0 "+" 0 0 "0" 1 "10" "0" none [] =
      some gC5b) ∧
    gC5a.sel Comparison.exons ≠ [] ∧
    gC5b.sel Comparison.exons ≠ [] ∧
    identical gC5a gC5b Comparison.exons = true ∧
    is_isoform gC5a gC5b Comparison.exons = false ∧
    overlap gC5a gC5b Comparison.exons = false := by
  decide

/-- C5 (amended): when additionally `locus_overlap(a, b)` holds (same
chromosome, same strand, intersecting spans) and the intervals of `a`
are well-formed, `identical(a, b)` with both chosen sets non-empty
implies `is_isoform(a, b)` and `overlap(a, b)`. -/
theorem C5_identical_implies (a b : Gene) (c : Comparison)
    (hloc : locus_overlap a b = true)
    (hna : a.sel c ≠ []) (_hnb : b.sel c ≠ [])
    (hwf : ∀ iv ∈ a.sel c, iv.1 ≤ iv.2)
    (hid : identical a b c = true) :
    is_isoform a b c = true ∧ overlap a b c = true := by
  have hsort := identical_sel_eq hid
  have hlen : (sortPairs (a.sel c)).length = (a.sel c).length :=
    (sortPairs_perm (a.sel c)).length_eq
  have hne : sortPairs (a.sel c) ≠ [] := by
    intro hnil
    apply hna
    rw [hnil] at hlen
    exact List.length_eq_zero.mp hlen.symm
  obtain ⟨iv, hivs⟩ := List.exists_mem_of_ne_nil _ hne
  have hivA : iv ∈ a.sel c := (sortPairs_perm (a.sel c)).mem_iff.mp hivs
  have hivB : iv ∈ b.sel c := by
    have : iv ∈ sortPairs (b.sel c) := by rw [← hsort]; exact hivs
    exact (sortPairs_perm (b.sel c)).mem_iff.mp this
  constructor
  · simp only [is_isoform, hloc, if_true, List.any_eq_true]
    exact ⟨iv, hivA, iv, hivB, by simp⟩
  · simp only [overlap, hloc, if_true, List.any_eq_true]
    have h12 : iv.1 ≤ iv.2 := hwf iv hivA
    exact ⟨iv, hivA, iv, hivB, by simp [h12]⟩

/-- C5 witness: the amended implication at `gC5a` and `gC5c`, two records
on the same chromosome with the same single exon. -/
theorem C5_identical_witness :
    is_isoform gC5a gC5c Comparison.exons = true ∧
    overlap gC5a gC5c Comparison.exons = true :=
  C5_identical_implies gC5a gC5c Comparison.exons (by decide) (by decide)
    (by decide) (by decide) (by decide)

/-- C6: for records with well-formed chosen intervals, `is_isoform`
implies `overlap` on the same comparison set; and the converse fails:
`gC6a` (exon `(0, 10)`) and `gC6b` (exon `(5, 15)`) overlap without
sharing an exact boundary pair. -/
theorem C6_isoform_implies_overlap :
    (∀ (a b : Gene) (c : Comparison),
      (∀ iv ∈ a.sel c, iv.1 ≤ iv.2) →
      (∀ iv ∈ b.sel c, iv.1 ≤ iv.2) →
      is_isoform a b c = true → overlap a b c = true) ∧
    (overlap gC6a gC6b Comparison.exons = true ∧
      is_isoform gC6a gC6b Comparison.exons = false) := by
  constructor
  · intro a b c hwa hwb hiso
    by_cases hloc : locus_overlap a b = true
    · simp only [is_isoform, hloc, if_true, List.any_eq_true,
        Bool.and_eq_true, decide_eq_true_eq] at hiso
      obtain ⟨p, hp, q, hq, hpq1, hpq2⟩ := hiso
      simp only [overlap, hloc, if_true, List.any_eq_true]
      refine ⟨p, hp, q, hq, ?_⟩
      have h1 : p.1 ≤ q.2 := hpq1 ▸ hwb q hq
      have h2 : q.1 ≤ p.2 := by
        rw [← hpq1]
        exact hpq2 ▸ hwa p hp
      simp [h1, h2]
    · simp only [is_isoform] at hiso
      rw [if_neg hloc] at hiso
      exact absurd hiso (by simp)
  · constructor
    · decide
    · decide

/-- C6 witness: the implication applied to `gC6a` against itself, which
is its own isoform. -/
theorem C6_isoform_witness : overlap gC6a gC6a Comparison.exons = true :=
  C6_isoform_implies_overlap.1 gC6a gC6a Comparison.exons (by decide)
    (by decide) (by decide)

/-- C7 counterexample: `gC7` has the single exon `(100, 150)` (trivially
pairwise disjoint, span `[100, 150]`), yet
`overlap_length(gC7, gC7) == 50` while the sum of `e - s + 1` exon
lengths is `51`: the pairwise term `min(a1,b1) - max(a0,b0)` omits the
`+ 1` of the closed-interval length. -/
theorem C7_overlap_length_cex :
    (geneInit "chr1" 100 150 "a" 0 "+" 0 0 "0" 1 "50" "0" none [] =
      some gC7) ∧
    List.Pairwise disjointIv (gC7.sel Comparison.exons) ∧
    overlap_length gC7 gC7 Comparison.exons = 50 ∧
    ((gC7.sel Comparison.exons).map (fun e => e.2 - e.1 + 1)).sum = 51 ∧
    ¬ ((51 : Int) ≤ 50) := by
  refine ⟨rfl, ?_, by decide, by decide, by decide⟩
  show List.Pairwise disjointIv [(100, 150)]
  simp

/-- C7 (amended): for a record with `start <= end` and a pairwise
disjoint chosen interval set, `overlap_length(a, a)` is at least the sum
of `e - s` over the intervals (the span without `+ 1` that the pairwise
term
actually measures). -/
theorem C7_overlap_length_self (g : Gene) (c : Comparison)
    (hse : g.start ≤ g.«end»)
    (_hdisj : List.Pairwise disjointIv (g.sel c)) :
    ((g.sel c).map (fun e => e.2 - e.1)).sum ≤ overlap_length g g c := by
  have hncond : ¬ (g.start > g.«end» ∨ g.start > g.«end») := by omega
  have hloc : locus_overlap g g = true := by
    simp [locus_overlap, hncond, hse]
  rw [overlap_length, if_pos hloc]
  apply List.sum_le_sum
  intro p hp
  have hmem : max 0 (min p.2 p.2 - max p.1 p.1) ∈
      (g.sel c).map (fun q => max 0 (min p.2 q.2 - max p.1 q.1)) :=
    List.mem_map_of_mem _ hp
  have hpos : ∀ y ∈ (g.sel c).map (fun q => max 0 (min p.2 q.2 - max p.1 q.1)),
      (0 : Int) ≤ y := by
    intro y hy
    obtain ⟨q, _, rfl⟩ := List.mem_map.mp hy
    exact le_max_left 0 _
  have hsum := List.single_le_sum hpos _ hmem
  calc p.2 - p.1 ≤ max 0 (p.2 - p.1) := le_max_right _ _
    _ = max 0 (min p.2 p.2 - max p.1 p.1) := by rw [min_self, max_self]
    _ ≤ _ := hsum

/-- C7 witness: the amended bound at the concrete record `gC7`. -/
theorem C7_overlap_length_witness :
    ((gC7.sel Comparison.exons).map (fun e => e.2 - e.1)).sum ≤
      overlap_length gC7 gC7 Comparison.exons :=
  C7_overlap_length_self gC7 Comparison.exons (by decide)
    (by show List.Pairwise disjointIv [(100, 150)]; simp)

lemma insertKeys_ok :
    ∀ (l acc : List String), (acc ++ l).Nodup →
    insertKeys acc l = Except.ok (acc ++ l) := by
  intro l
  induction l with
  | nil => intro acc _; simp [insertKeys]
  | cons k rest ih =>
    intro acc h
    have hk : k ∉ acc := by
      rw [List.nodup_append] at h
      intro hka
      exact h.2.2 hka (List.mem_cons_self k rest)
    have hrest := ih (acc ++ [k]) (by rw [List.append_assoc]; simpa using h)
    have hstep : insertKeys acc (k :: rest) =
        if k ∈ acc then Except.error (collisionMsg k)
        else insertKeys (acc ++ [k]) rest := rfl
    rw [hstep, if_neg hk, hrest]
    simp

lemma insertKeys_err :
    ∀ (l acc : List String), acc.Nodup → ¬ (acc ++ l).Nodup →
    ∃ k, insertKeys acc l = Except.error (collisionMsg k) ∧
      2 ≤ (acc ++ l).count k := by
  intro l
  induction l with
  | nil =>
    intro acc hacc hnd
    exact absurd (by simpa using hacc) hnd
  | cons k rest ih =>
    intro acc hacc hnd
    by_cases hk : k ∈ acc
    · refine ⟨k, by simp [insertKeys, hk], ?_⟩
      have h1 : 0 < acc.count k := List.count_pos_iff.mpr hk
      have h2 : (acc ++ k :: rest).count k = acc.count k + (k :: rest).count k :=
        List.count_append k acc (k :: rest)
      have h3 : (k :: rest).count k = rest.count k + 1 := List.count_cons_self k rest
      omega
    · have hacck : (acc ++ [k]).Nodup := by
        rw [List.nodup_append]
        refine ⟨hacc, List.nodup_singleton k, ?_⟩
        intro a ha hmem
        have : a = k := by simpa using hmem
        exact hk (this ▸ ha)
      have hnd2 : ¬ ((acc ++ [k]) ++ rest).Nodup := by
        rw [List.append_assoc]
        simpa using hnd
      obtain ⟨k₂, herr, hcount⟩ := ih (acc ++ [k]) hacck hnd2
      refine ⟨k₂, ?_, ?_⟩
      · have hstep : insertKeys acc (k :: rest) =
            if k ∈ acc then Except.error (collisionMsg k)
            else insertKeys (acc ++ [k]) rest := rfl
        rw [hstep, if_neg hk, herr]
      · have heq : ((acc ++ [k]) ++ rest) = acc ++ k :: rest := by simp
        rwa [heq] at hcount

lemma insertKeys_append :
    ∀ (l₁ l₂ acc : List String),
    insertKeys acc (l₁ ++ l₂) =
      match insertKeys acc l₁ with
      | Except.ok a => insertKeys a l₂
      | Except.error e => Except.error e := by
  intro l₁
  induction l₁ with
  | nil => intro l₂ acc; simp [insertKeys]
  | cons k rest ih =>
    intro l₂ acc
    have h1 : insertKeys acc ((k :: rest) ++ l₂) =
        if k ∈ acc then Except.error (collisionMsg k)
        else insertKeys (acc ++ [k]) (rest ++ l₂) := rfl
    have h2 : insertKeys acc (k :: rest) =
        if k ∈ acc then Except.error (collisionMsg k)
        else insertKeys (acc ++ [k]) rest := rfl
    rw [h1, h2]
    by_cases hk : k ∈ acc
    · rw [if_pos hk, if_pos hk]
    · rw [if_neg hk, if_neg hk, ih]

lemma collectionInitAux_flatten :
    ∀ (indices : List (List String)) (acc : List String),
    collectionInitAux acc indices = insertKeys acc indices.flatten := by
  intro indices
  induction indices with
  | nil => intro acc; rfl
  | cons idx rest ih =>
    intro acc
    rw [List.flatten_cons, insertKeys_append]
    have hstep : collectionInitAux acc (idx :: rest) =
        match insertKeys acc idx with
        | Except.error e => Except.error e
        | Except.ok acc2 => collectionInitAux acc2 rest := rfl
    rw [hstep]
    cases h : insertKeys acc idx with
    | error e => rfl
    | ok a => exact ih a

/-- C8: with each member index duplicate-free (as `IndexedFasta`
enforces), if the joined name lists have a duplicate — i.e. some name
appears in more than one input file — then construction fails with the
duplicate-key `ValueError` whose message contains the offending name
(which occurs at least twice across the files); and if no name is
duplicated, construction succeeds and the key list of the collection is
the concatenation (as sets, the union) of the name lists of the member
indices. -/
theorem C8_collection_init (indices : List (List String))
    (_hnodup : ∀ l ∈ indices, l.Nodup) :
    (indices.flatten.Nodup →
      collectionInit indices = Except.ok indices.flatten) ∧
    (¬ indices.flatten.Nodup →
      ∃ k, collectionInit indices = Except.error (collisionMsg k) ∧
        2 ≤ indices.flatten.count k ∧
        ∃ pre post, collisionMsg k = pre ++ k ++ post) := by
  constructor
  · intro hj
    rw [collectionInit, collectionInitAux_flatten]
    have h := insertKeys_ok indices.flatten [] (by simpa using hj)
    simpa using h
  · intro hj
    rw [collectionInit, collectionInitAux_flatten]
    obtain ⟨k, herr, hcount⟩ :=
      insertKeys_err indices.flatten [] List.nodup_nil (by simpa using hj)
    exact ⟨k, herr, by simpa using hcount,
      "Key collision: sequence name ", " appears more than once.", rfl⟩

/-- C8 witness: a two-file collection without name collisions merges
into the union of the name spaces. -/
theorem C8_collection_witness :
    collectionInit [["chr1"], ["chr2"]] = Except.ok ["chr1", "chr2"] :=
  (C8_collection_init [["chr1"], ["chr2"]] (by decide)).1 (by decide)

lemma readLine_append (t rest : List Char) (hnl : '\n' ∉ t) :
    readLine (t ++ '\n' :: rest) = (t ++ ['\n'], rest) := by
  induction t with
  | nil =>
    show readLine ('\n' :: rest) = (['\n'], rest)
    rfl
  | cons c t2 ih =>
    have hc : c ≠ '\n' := fun h => hnl (h ▸ List.mem_cons_self c t2)
    have ih2 := ih (fun h => hnl (List.mem_cons_of_mem c h))
    have hstep : readLine (c :: (t2 ++ '\n' :: rest)) =
        if c = '\n' then ([c], t2 ++ '\n' :: rest)
        else ((c :: (readLine (t2 ++ '\n' :: rest)).1,
          (readLine (t2 ++ '\n' :: rest)).2)) := rfl
    show readLine (c :: (t2 ++ '\n' :: rest)) = ((c :: t2) ++ ['\n'], rest)
    rw [hstep, if_neg hc, ih2]
    rfl

lemma dropWhile_nonspace (l : List Char)
    (h : ∀ c ∈ l, pyIsSpace c = false) : l.dropWhile pyIsSpace = l := by
  cases l with
  | nil => rfl
  | cons a t =>
    rw [List.dropWhile_cons, h a (List.mem_cons_self a t)]
    simp

lemma takeWhile_nonspace (l : List Char)
    (h : ∀ c ∈ l, pyIsSpace c = false) :
    l.takeWhile (fun c => !pyIsSpace c) = l := by
  induction l with
  | nil => rfl
  | cons a t ih =>
    rw [List.takeWhile_cons]
    rw [h a (List.mem_cons_self a t)]
    simp only [Bool.not_false, if_true, ite_true]
    rw [ih (fun c hc => h c (List.mem_cons_of_mem a hc))]

lemma pyStrip_token (t : List Char) (hne : t ≠ [])
    (h : ∀ c ∈ t, pyIsSpace c = false) : pyStrip (t ++ ['\n']) = t := by
  cases t with
  | nil => exact absurd rfl hne
  | cons a t2 =>
    have ha : pyIsSpace a = false := h a (List.mem_cons_self a t2)
    have hall : ∀ c ∈ t2.reverse ++ [a], pyIsSpace c = false := by
      intro c hc
      rcases List.mem_append.mp hc with h1 | h2
      · exact h c (List.mem_cons_of_mem a (List.mem_reverse.mp h1))
      · have : c = a := by simpa using h2
        exact this ▸ ha
    rw [pyStrip]
    rw [show ((a :: t2) ++ ['\n']) = a :: (t2 ++ ['\n']) from rfl]
    rw [List.dropWhile_cons, ha]
    simp only [Bool.false_eq_true, if_false, ite_false]
    rw [List.reverse_cons, List.reverse_append]
    rw [show ((['\n'].reverse ++ t2.reverse) ++ [a]) =
      '\n' :: (t2.reverse ++ [a]) from by simp]
    rw [List.dropWhile_cons]
    rw [show pyIsSpace '\n' = true from rfl]
    simp only [if_true, ite_true]
    rw [dropWhile_nonspace _ hall]
    simp

lemma splitHeader_token (t : List Char) (hne : t ≠ [])
    (h : ∀ c ∈ t, pyIsSpace c = false) :
    splitHeader (t ++ ['\n']) = some (t, none) := by
  rw [splitHeader]
  simp only [pyStrip_token t hne h]
  rw [if_neg hne]
  rw [takeWhile_nonspace t h]
  rw [List.drop_length]
  simp [List.dropWhile]

lemma seqLoop_eof (b : List Char) :
    ∀ acc, '>' ∉ b →
    seqLoop acc b = (acc ++ b.filter (fun c => !pyIsSpace c), true, []) := by
  induction b with
  | nil => intro acc _; simp [seqLoop]
  | cons c rest ih =>
    intro acc hb
    have hc : c ≠ '>' := fun h => hb (h ▸ List.mem_cons_self c rest)
    have hrest : '>' ∉ rest := fun h => hb (List.mem_cons_of_mem c h)
    have hstep : seqLoop acc (c :: rest) =
        if pyIsSpace c then seqLoop acc rest
        else if c = '>' then (acc ++ [c], false, rest)
        else seqLoop (acc ++ [c]) rest := rfl
    by_cases hs : pyIsSpace c
    · rw [hstep, if_pos hs, ih acc hrest]
      congr 1
      rw [List.filter_cons]
      simp [hs]
    · rw [hstep, if_neg hs, if_neg hc, ih (acc ++ [c]) hrest]
      rw [List.filter_cons]
      simp only [hs]
      simp [List.append_assoc]

lemma seqLoop_break (b : List Char) :
    ∀ acc rest, '>' ∉ b →
    seqLoop acc (b ++ '>' :: rest) =
      (acc ++ b.filter (fun c => !pyIsSpace c) ++ ['>'], false, rest) := by
  induction b with
  | nil =>
    intro acc rest _
    have hstep : seqLoop acc ('>' :: rest) =
        if pyIsSpace '>' then seqLoop acc rest
        else if '>' = '>' then (acc ++ ['>'], false, rest)
        else seqLoop (acc ++ ['>']) rest := rfl
    show seqLoop acc ('>' :: rest) =
      (acc ++ List.filter (fun c => !pyIsSpace c) [] ++ ['>'], false, rest)
    rw [hstep]
    simp [show pyIsSpace '>' = false from rfl]
  | cons c brest ih =>
    intro acc rest hb
    have hc : c ≠ '>' := fun h => hb (h ▸ List.mem_cons_self c brest)
    have hrest : '>' ∉ brest := fun h => hb (List.mem_cons_of_mem c h)
    have hstep : seqLoop acc ((c :: brest) ++ '>' :: rest) =
        if pyIsSpace c then seqLoop acc (brest ++ '>' :: rest)
        else if c = '>' then (acc ++ [c], false, brest ++ '>' :: rest)
        else seqLoop (acc ++ [c]) (brest ++ '>' :: rest) := rfl
    by_cases hs : pyIsSpace c
    · rw [hstep, if_pos hs, ih acc rest hrest]
      rw [List.filter_cons]
      simp [hs]
    · rw [hstep, if_neg hs, if_neg hc, ih (acc ++ [c]) rest hrest]
      rw [List.filter_cons]
      simp only [hs]
      simp [List.append_assoc]

lemma parse_record_break (t b rest : List Char) (hne : t ≠ [])
    (ht : ∀ c ∈ t, pyIsSpace c = false) (hb : '>' ∉ b) :
    parse_fasta_record ('>' :: (t ++ '\n' :: (b ++ '>' :: rest))) =
      some (⟨t, b.filter (fun c => !pyIsSpace c), none⟩, '>' :: rest) := by
  have hnl : '\n' ∉ t := fun hmem => absurd (ht '\n' hmem) (by decide)
  have hfh : findHeader ('>' :: (t ++ '\n' :: (b ++ '>' :: rest))) =
      some (t ++ '\n' :: (b ++ '>' :: rest)) := rfl
  have hrl := readLine_append t (b ++ '>' :: rest) hnl
  have hsh := splitHeader_token t hne ht
  have hsl := seqLoop_break b [] rest hb
  rw [parse_fasta_record, hfh]
  simp only [hrl, hsh, hsl]
  simp [List.dropLast_concat]

lemma parse_record_eof (t b : List Char) (hne : t ≠ [])
    (ht : ∀ c ∈ t, pyIsSpace c = false) (hb : '>' ∉ b) :
    parse_fasta_record ('>' :: (t ++ '\n' :: b)) =
      some (⟨t, b.filter (fun c => !pyIsSpace c), none⟩, []) := by
  have hnl : '\n' ∉ t := fun hmem => absurd (ht '\n' hmem) (by decide)
  have hfh : findHeader ('>' :: (t ++ '\n' :: b)) = some (t ++ '\n' :: b) := rfl
  have hrl := readLine_append t b hnl
  have hsh := splitHeader_token t hne ht
  have hsl := seqLoop_eof b [] hb
  rw [parse_fasta_record, hfh]
  simp only [hrl, hsh, hsl]
  simp

/-- C10: when a record body `b1` (no `'>'` inside) is terminated by the
next header marker, `parse_fasta_record` returns the non-space body
characters with the terminating `'>'` excluded and leaves the stream
positioned exactly at that `'>'`, so the next call parses the
immediately following record in full (to end of file here), losing and
skipping no sequence characters. -/
theorem C10_record_boundary (t1 b1 t2 b2 : List Char)
    (ht1 : t1 ≠ []) (hs1 : ∀ c ∈ t1, pyIsSpace c = false)
    (ht2 : t2 ≠ []) (hs2 : ∀ c ∈ t2, pyIsSpace c = false)
    (hb1 : '>' ∉ b1) (hb2 : '>' ∉ b2) :
    parse_fasta_record
        ('>' :: (t1 ++ '\n' :: (b1 ++ '>' :: (t2 ++ '\n' :: b2)))) =
      some (⟨t1, b1.filter (fun c => !pyIsSpace c), none⟩,
        '>' :: (t2 ++ '\n' :: b2)) ∧
    parse_fasta_record ('>' :: (t2 ++ '\n' :: b2)) =
      some (⟨t2, b2.filter (fun c => !pyIsSpace c), none⟩, []) :=
  ⟨parse_record_break t1 b1 (t2 ++ '\n' :: b2) ht1 hs1 hb1,
   parse_record_eof t2 b2 ht2 hs2 hb2⟩

/-- C10 witness: a two-record stream
`">a\nA\nC>b\nGG"`: the first call returns sequence `"AC"` and stops at
the second `'>'`, from which the second call returns `"GG"`. -/
theorem C10_record_boundary_witness :
    parse_fasta_record
        ('>' :: (['a'] ++ '\n' :: (['A', '\n', 'C'] ++ '>' ::
          (['b'] ++ '\n' :: ['G', 'G'])))) =
      some (⟨['a'], ['A', 'C'], none⟩,
        '>' :: (['b'] ++ '\n' :: ['G', 'G'])) ∧
    parse_fasta_record ('>' :: (['b'] ++ '\n' :: ['G', 'G'])) =
      some (⟨['b'], ['G', 'G'], none⟩, []) :=
  C10_record_boundary ['a'] ['A', '\n', 'C'] ['b'] ['G', 'G']
    (by decide) (by decide) (by decide) (by decide) (by decide) (by decide)

end Featureio
